/-
  Verification of the lude multi-factor optimization pipeline.

  Part I embeds the factor-combination encoding of
  `src/optuna_search/new_test/bayesian_optuna_150_5.ipynb`
  (`decode_combination`, `objective`, `flexible_decode_combination`).

  Part II models the multistage semantic optimization strategy
  (fixed parameter space, decode/validate/score, analyzer, phase-two
  routing).  The Python module `lude/optimization/strategies/multistage`
  is documented in the repository but its source files are not present;
  those definitions are modelled from the spec, as marked in their
  doc comments.
-/
import Mathlib

namespace Lude

/-! ### Part I: notebook embedding -/

/-- A decoded factor entry: `{'name': ..., 'weight': ..., 'ascending': ...}`. -/
structure FactorInfo where
  name : String
  weight : Nat
  ascending : Bool
deriving DecidableEq, Repr

/-- The 26-factor list of the notebook's parameter-space cell. -/
def factors : List String :=
  ["pre_close", "open", "high", "low", "close", "pct_chg", "vol",
   "amount", "volatility_stk", "mod_conv_prem", "remain_cap", "conv_prem",
   "turnover", "theory_value", "option_value", "dblow",
   "theory_bias", "ytm", "cap_mv_rate", "pure_value", "bond_prem",
   "remain_size", "theory_conv_prem", "pb", "pe_ttm", "ps_ttm"]

/-- The notebook's base-settings cell sets `num_factors = 3`. -/
def num_factors : Nat := 3

/-- Embedding of `itertools.combinations(xs, k)`: all `k`-element
subsequences of `xs`, in lexicographic order of positions. -/
def combos : Nat → List Nat → List (List Nat)
  | 0, _ => [[]]
  | _ + 1, [] => []
  | k + 1, x :: xs => ((combos k xs).map (x :: ·)) ++ combos (k + 1) xs

/-- The notebook's `combinations = list(itertools.combinations(range(len(factors)), num_factors))`. -/
def combinations : List (List Nat) := combos num_factors (List.range factors.length)

/-- The recorded parameter values of one trial: the value stored under key
`encoded_id`, and the values stored under keys `factor{i}_weight` and
`factor{i}_ascending` (the function argument is the literal `i` of the key). -/
structure EncodedParams where
  encoded_id : Nat
  weight : Nat → Nat
  ascending : Nat → Bool

/-- Embedding of `decode_combination(encoded) = [factors[i] for i in encoded]`;
an out-of-range index raises, modelled as `none`. -/
def decode_combination : List Nat → Option (List String)
  | [] => some []
  | i :: rest =>
    match factors[i]?, decode_combination rest with
    | some nm, some tl => some (nm :: tl)
    | _, _ => none

/-- The loop body of `flexible_decode_combination`: `i` is the running
`enumerate` counter, the keys used are `factor{i+1}_weight` / `_ascending`. -/
def buildRankFactors (p : EncodedParams) : Nat → List Nat → Option (List FactorInfo)
  | _, [] => some []
  | i, idx :: rest =>
    match factors[idx]? with
    | none => none
    | some nm =>
      (buildRankFactors p (i + 1) rest).map
        (({ name := nm, weight := p.weight (i + 1), ascending := p.ascending (i + 1) } : FactorInfo) :: ·)

/-- Embedding of `flexible_decode_combination(encoded_params)`: look up
`combinations[encoded_params['encoded_id']]` and build the ordered
factor list from the recorded `factor{i+1}_weight` / `_ascending` values. -/
def flexible_decode_combination (p : EncodedParams) : Option (List FactorInfo) :=
  (combinations[p.encoded_id]?).bind (buildRankFactors p 0)

/-- The `for i in range(num_factors)` loop of `objective`: reads
`decoded_factors[i]` and the values suggested for `factor{i+1}_weight` /
`factor{i+1}_ascending`.  First argument is `i`, second the remaining
iteration count. -/
def objLoop (p : EncodedParams) (decoded : List String) : Nat → Nat → Option (List FactorInfo)
  | _, 0 => some []
  | i, k + 1 =>
    match decoded[i]? with
    | none => none
    | some nm =>
      (objLoop p decoded (i + 1) k).map
        (({ name := nm, weight := p.weight (i + 1), ascending := p.ascending (i + 1) } : FactorInfo) :: ·)

/-- The `rank_factors` list that `objective` builds and passes to `cal_cagr`,
as a function of the trial's recorded parameter values. -/
def objective_rank_factors (p : EncodedParams) : Option (List FactorInfo) :=
  (combinations[p.encoded_id]?).bind fun factor_ids =>
    (decode_combination factor_ids).bind fun decoded =>
      objLoop p decoded 0 num_factors

/-! Basic facts about `combos`. -/

theorem length_of_mem_combos {k : Nat} {xs : List Nat} {l : List Nat}
    (h : l ∈ combos k xs) : l.length = k := by
  induction xs generalizing k l with
  | nil =>
    cases k with
    | zero => simp [combos] at h; simp [h]
    | succ k => simp [combos] at h
  | cons x xs ih =>
    cases k with
    | zero => simp [combos] at h; simp [h]
    | succ k =>
      simp only [combos, List.mem_append, List.mem_map] at h
      rcases h with ⟨t, ht, rfl⟩ | h
      · simp [ih ht]
      · exact ih h

theorem sublist_of_mem_combos {k : Nat} {xs : List Nat} {l : List Nat}
    (h : l ∈ combos k xs) : l.Sublist xs := by
  induction xs generalizing k l with
  | nil =>
    cases k with
    | zero => simp [combos] at h; simp [h]
    | succ k => simp [combos] at h
  | cons x xs ih =>
    cases k with
    | zero => simp [combos] at h; simp [h]
    | succ k =>
      simp only [combos, List.mem_append, List.mem_map] at h
      rcases h with ⟨t, ht, rfl⟩ | h
      · exact List.Sublist.cons₂ x (ih ht)
      · exact List.Sublist.cons x (ih h)

theorem mem_combinations_shape {l : List Nat} (h : l ∈ combinations) :
    l.length = 3 ∧ ∀ i ∈ l, i < 26 := by
  refine ⟨length_of_mem_combos h, fun i hi => ?_⟩
  have hs := sublist_of_mem_combos h
  have : i ∈ List.range factors.length := hs.mem hi
  simpa [factors] using List.mem_range.mp this

theorem roundtrip_aux (p : EncodedParams) (a b d : Nat)
    (ha : a < 26) (hb : b < 26) (hd : d < 26) :
    buildRankFactors p 0 [a, b, d] =
      (decode_combination [a, b, d]).bind (fun decoded => objLoop p decoded 0 num_factors) ∧
    (buildRankFactors p 0 [a, b, d]).isSome := by
  have ha' : a < factors.length := ha
  have hb' : b < factors.length := hb
  have hd' : d < factors.length := hd
  have hfa : factors[a]? = some (factors.get ⟨a, ha'⟩) := List.getElem?_eq_getElem ha'
  have hfb : factors[b]? = some (factors.get ⟨b, hb'⟩) := List.getElem?_eq_getElem hb'
  have hfd : factors[d]? = some (factors.get ⟨d, hd'⟩) := List.getElem?_eq_getElem hd'
  constructor
  · simp [buildRankFactors, decode_combination, objLoop, num_factors, hfa, hfb, hfd]
  · simp [buildRankFactors, hfa, hfb, hfd]

/-- C5: decode is deterministic — for a fixed `TrialParameters` value,
`flexible_decode_combination` always produces the same result (the same
factor list or the same failure); there is no hidden randomness in decode. -/
theorem flexible_decode_deterministic (p q : EncodedParams) (h : p = q) :
    flexible_decode_combination p = flexible_decode_combination q := by
  rw [h]

/-- Witness for C5 at a concrete parameter record. -/
theorem flexible_decode_deterministic_witness :
    (⟨0, fun _ => 2, fun _ => true⟩ : EncodedParams) = ⟨0, fun _ => 2, fun _ => true⟩ ∧
    flexible_decode_combination ⟨0, fun _ => 2, fun _ => true⟩ =
      flexible_decode_combination ⟨0, fun _ => 2, fun _ => true⟩ :=
  ⟨rfl, flexible_decode_deterministic _ _ rfl⟩

/-- C10: decoding a recorded trial's parameters round-trips — for every
parameter record whose `encoded_id` is a valid index into `combinations`,
`flexible_decode_combination` returns exactly the ordered `rank_factors`
list that `objective` constructs from the same parameter values, and the
decoding succeeds. -/
theorem flexible_decode_roundtrip (p : EncodedParams)
    (h : p.encoded_id < combinations.length) :
    flexible_decode_combination p = objective_rank_factors p ∧
    (flexible_decode_combination p).isSome := by
  obtain ⟨c, hc⟩ : ∃ c, combinations[p.encoded_id]? = some c :=
    ⟨_, List.getElem?_eq_getElem h⟩
  have hmem : c ∈ combinations := List.getElem?_mem hc
  obtain ⟨hlen, hlt⟩ := mem_combinations_shape hmem
  obtain ⟨a, b, d, rfl⟩ : ∃ a b d, c = [a, b, d] := by
    match c, hlen with
    | [a, b, d], _ => exact ⟨a, b, d, rfl⟩
  have ha : a < 26 := hlt a (by simp)
  have hb : b < 26 := hlt b (by simp)
  have hd : d < 26 := hlt d (by simp)
  obtain ⟨heq, hsome⟩ := roundtrip_aux p a b d ha hb hd
  constructor
  · simp only [flexible_decode_combination, objective_rank_factors, hc, Option.bind_some]
    exact heq
  · simp only [flexible_decode_combination, hc, Option.bind_some]
    exact hsome

theorem combos_ne_nil {k : Nat} {xs : List Nat} (h : k ≤ xs.length) :
    combos k xs ≠ [] := by
  induction xs generalizing k with
  | nil =>
    have hk : k = 0 := Nat.le_zero.mp (by simpa using h)
    subst hk
    simp [combos]
  | cons x xs ih =>
    cases k with
    | zero => simp [combos]
    | succ k =>
      have hk : k ≤ xs.length := by simpa using Nat.le_of_succ_le_succ h
      have := ih hk
      simp only [combos, ne_eq, List.append_eq_nil, List.map_eq_nil_iff]
      intro hcontra
      exact this hcontra.1

theorem combinations_length_pos : 0 < combinations.length :=
  List.length_pos.mpr (combos_ne_nil (by simp [factors, num_factors]))

/-- Witness for C10 at the concrete record with `encoded_id = 0`. -/
theorem flexible_decode_roundtrip_witness :
    ((⟨0, fun _ => 3, fun _ => false⟩ : EncodedParams).encoded_id < combinations.length) ∧
    (flexible_decode_combination ⟨0, fun _ => 3, fun _ => false⟩ =
       objective_rank_factors ⟨0, fun _ => 3, fun _ => false⟩ ∧
     (flexible_decode_combination ⟨0, fun _ => 3, fun _ => false⟩).isSome) :=
  ⟨combinations_length_pos, flexible_decode_roundtrip _ combinations_length_pos⟩

/-! ### Part II: the multistage semantic optimization strategy

The Python sources of `lude/optimization/strategies/multistage` (config.py,
semantic_objective_v2.py, coordinator.py) are not in the repository
snapshot; only their architecture documents, tests and callers are.  The
definitions below are modelled from the spec. -/

/-- Modelled from the spec: the four base parameter names of the fixed
parameter space of `semantic_objective_v2.py`. -/
def baseParamNames : List String :=
  ["primary_strategy", "use_mixed_strategy", "secondary_strategy", "enable_auxiliary"]

/-- Modelled from the spec: the four per-factor parameter names declared
for every factor of the fixed pool. -/
def factorParamNames (f : String) : List String :=
  ["weight_" ++ f, "ascending_" ++ f, "enable_secondary_" ++ f, "enable_aux_" ++ f]

/-- Modelled from the spec: the complete, invariant list of parameter names
declared by the fixed parameter space over a factor pool. -/
def paramNames (pool : List String) : List String :=
  baseParamNames ++ pool.flatMap factorParamNames

/-- Modelled from the spec: a trial context — the only thing that varies
between trials is which value the sampler draws for each named parameter. -/
structure TrialContext where
  draw : String → ℚ

/-- Modelled from the spec: `sampleAll(trialContext)` suggests a value for
every declared parameter on every trial. -/
def sampleAll (pool : List String) (t : TrialContext) : List (String × ℚ) :=
  (paramNames pool).map fun n => (n, t.draw n)

/-- C1: parameter-space invariance — for any two trials (any phase), the
list of parameter names sampled by `sampleAll` is identical; only the drawn
values differ, and that name list is exactly the declared fixed space. -/
theorem sampleAll_names_invariant (pool : List String) (t1 t2 : TrialContext) :
    (sampleAll pool t1).map Prod.fst = (sampleAll pool t2).map Prod.fst ∧
    (sampleAll pool t1).map Prod.fst = paramNames pool := by
  simp [sampleAll, List.map_map, Function.comp_def]

/-- C2: the fixed parameter space declares `4 + 4·(pool size)` parameters;
for a pool of 48 factors that is exactly 196. -/
theorem paramNames_count (pool : List String) :
    (paramNames pool).length = 4 + 4 * pool.length ∧
    (pool.length = 48 → (paramNames pool).length = 196) := by
  have hflat : ∀ l : List String, (l.flatMap factorParamNames).length = 4 * l.length := by
    intro l
    induction l with
    | nil => rfl
    | cons f fs ih =>
      simp only [List.flatMap_cons, List.length_append, List.length_cons, List.length_nil,
        factorParamNames, ih]
      omega
  have hlen : (paramNames pool).length = 4 + 4 * pool.length := by
    simp only [paramNames, baseParamNames, List.length_append, List.length_cons,
      List.length_nil, hflat]
  exact ⟨hlen, fun h48 => by rw [hlen, h48]⟩

/-- A concrete 48-name factor pool used to instantiate `paramNames_count`. -/
def pool48 : List String := (List.range 48).map (fun i => "factor" ++ toString i)

/-- Witness for C2 at the concrete 48-factor pool. -/
theorem paramNames_count_witness :
    pool48.length = 48 ∧ (paramNames pool48).length = 196 :=
  ⟨by simp [pool48], (paramNames_count pool48).2 (by simp [pool48])⟩

/-- Modelled from the spec: a named investment strategy with its ordered
pool of core factors (StrategyCatalog entry, `strategy_config.yaml`). -/
structure Strategy where
  name : String
  core_factors : List String
deriving DecidableEq, Repr

/-- Modelled from the spec: `strategy_combination_rules` —
mutually-exclusive strategy pairs, factor-count bounds, and the bound on
auxiliary factors added at decode time. -/
structure CombinationRules where
  excluded : List (String × String)
  min_core_factors : Nat
  max_mixed_factors : Nat
  max_aux : Nat
deriving DecidableEq, Repr

/-- Modelled from the spec: the `StrategyConfig` manager of
`multistage/config.py` — catalog, combination rules, conflict pairs of
near-duplicate factors, and the fixed factor pool. -/
structure StrategyConfig where
  strategies : List Strategy
  rules : CombinationRules
  conflict_pairs : List (String × String)
  factor_pool : List String
deriving DecidableEq, Repr

/-- Modelled from the spec: `getStrategy(name)` — look the strategy up in
the catalog, `none` when not found. -/
def getStrategy (cfg : StrategyConfig) (nm : String) : Option Strategy :=
  cfg.strategies.find? (fun s => s.name == nm)

/-- Modelled from the spec: `is_valid_combination(primary, secondary)` —
a combination is rejected exactly when it is on the predefined
mutually-exclusive list. -/
def is_valid_combination (cfg : StrategyConfig) (primary secondary : String) : Bool :=
  !(cfg.rules.excluded.contains (primary, secondary))

/-- Modelled from the spec: `check_factor_conflicts(rank_factors)` — `true`
when some configured near-duplicate pair is fully contained in the
combination. -/
def check_factor_conflicts (cfg : StrategyConfig) (names : List String) : Bool :=
  cfg.conflict_pairs.any (fun pr => names.contains pr.1 && names.contains pr.2)

/-- Modelled from the spec: a decoded `TrialParameters` record of the fixed
196-parameter space — the four base selections plus the per-factor weight,
direction, secondary-enable and auxiliary-enable values, indexed by factor
name. -/
structure TrialParams where
  primary_strategy : String
  use_mixed_strategy : Bool
  secondary_strategy : String
  enable_auxiliary : Bool
  weight : String → Nat
  ascending : String → Bool
  enable_secondary : String → Bool
  enable_aux : String → Bool

/-- The ways a trial is pruned at decode time. -/
inductive DecodeFailure where
  | unknownStrategy
  | invalidCombination
  | tooFewFactors
  | tooManyFactors
  | factorConflict
deriving DecidableEq, Repr

/-- Modelled from the spec: the secondary factors merged in when mixing —
members of the secondary strategy's pool whose `enable_secondary` flag is
set and that are not already in the primary pool. -/
def secondarySelected (cfg : StrategyConfig) (p : TrialParams)
    (primaryFs : List String) : List String :=
  if p.use_mixed_strategy then
    (match getStrategy cfg p.secondary_strategy with
      | some s => s.core_factors
      | none => []).filter
      (fun f => p.enable_secondary f && !(primaryFs.contains f))
  else []

/-- Modelled from the spec: the bounded set of auxiliary factors — pool
members outside the primary and secondary selections whose `enable_aux`
flag is set, truncated to `max_aux`. -/
def auxSelected (cfg : StrategyConfig) (p : TrialParams)
    (primaryFs secFs : List String) : List String :=
  if p.enable_auxiliary then
    (cfg.factor_pool.filter
      (fun f => p.enable_aux f && !(primaryFs.contains f) && !(secFs.contains f))).take
      cfg.rules.max_aux
  else []

/-- Modelled from the spec: `decode(TrialParameters, StrategyCatalog)` —
resolve the primary pool, validate the strategy combination, build the
candidate factor set, enforce the count bounds, reject conflicts, then
attach each retained factor's sampled weight and direction. -/
def decode (cfg : StrategyConfig) (p : TrialParams) :
    Except DecodeFailure (List FactorInfo) :=
  match getStrategy cfg p.primary_strategy with
  | none => .error .unknownStrategy
  | some prim =>
    if p.use_mixed_strategy &&
        !(is_valid_combination cfg p.primary_strategy p.secondary_strategy) then
      .error .invalidCombination
    else
      let sec := secondarySelected cfg p prim.core_factors
      let aux := auxSelected cfg p prim.core_factors sec
      let cand := prim.core_factors ++ sec ++ aux
      if cand.length < cfg.rules.min_core_factors then .error .tooFewFactors
      else if cfg.rules.max_mixed_factors < cand.length then .error .tooManyFactors
      else if check_factor_conflicts cfg cand then .error .factorConflict
      else .ok (cand.map fun f => { name := f, weight := p.weight f, ascending := p.ascending f })

/-- Per-trial failure outcomes seen by the optimizer. -/
inductive TrialOutcome where
  | pruned (e : DecodeFailure)
  | scoringError (msg : String)
deriving DecidableEq, Repr

/-- Modelled from the spec: the objective of one trial — decode, then (only
when decoding succeeded) invoke the external backtest scorer; a scorer
failure propagates, it is never replaced by a fallback score. -/
def objective (scorer : List FactorInfo → Except String ℚ)
    (cfg : StrategyConfig) (p : TrialParams) : Except TrialOutcome ℚ :=
  match decode cfg p with
  | .error e => .error (.pruned e)
  | .ok comb =>
    match scorer comb with
    | .error msg => .error (.scoringError msg)
    | .ok v => .ok v

/-- C3: bounds invariant — every combination decode returns without pruning
has its length between `min_core_factors` and `max_mixed_factors`, and a
pruned trial is never handed to the scorer: the objective reports the
pruning outcome for any scorer. -/
theorem decode_bounds_invariant (cfg : StrategyConfig) (p : TrialParams) :
    (∀ l, decode cfg p = .ok l →
      cfg.rules.min_core_factors ≤ l.length ∧ l.length ≤ cfg.rules.max_mixed_factors) ∧
    (∀ e, decode cfg p = .error e →
      ∀ scorer, objective scorer cfg p = .error (.pruned e)) := by
  constructor
  · intro l hl
    unfold decode at hl
    split at hl
    · simp at hl
    · split at hl
      · simp at hl
      · dsimp only at hl
        split at hl
        · simp at hl
        · split at hl
          · simp at hl
          · split at hl
            · simp at hl
            · rename_i prim _ hmin hmax _
              rw [Except.ok.injEq] at hl
              subst hl
              simp only [List.length_map]
              omega
  · intro e he scorer
    simp [objective, he]

/-- A minimal well-formed catalog used in witnesses: one six-factor value
strategy, 6–12 factor bounds, one excluded pair, no conflict pairs. -/
def wcfgA : StrategyConfig :=
  { strategies := [⟨"value", ["f1", "f2", "f3", "f4", "f5", "f6"]⟩,
                   ⟨"momentum", ["g1", "g2", "g3", "g4", "g5", "g6"]⟩]
  , rules := { excluded := [("momentum", "contrarian")]
             , min_core_factors := 6, max_mixed_factors := 12, max_aux := 3 }
  , conflict_pairs := [("f1", "g1")]
  , factor_pool := ["f1", "f2", "f3", "f4", "f5", "f6", "g1", "g2", "g3", "g4", "g5", "g6"] }

/-- A trial of `wcfgA` that decodes without pruning. -/
def wparamsA : TrialParams :=
  { primary_strategy := "value", use_mixed_strategy := false
  , secondary_strategy := "value", enable_auxiliary := false
  , weight := fun _ => 3, ascending := fun _ => true
  , enable_secondary := fun _ => false, enable_aux := fun _ => false }

/-- The combination `wparamsA` decodes to. -/
def wlistA : List FactorInfo :=
  ["f1", "f2", "f3", "f4", "f5", "f6"].map fun f => ⟨f, 3, true⟩

theorem decode_wparamsA : decode wcfgA wparamsA = .ok wlistA := by
  rfl

/-- Witness for C3 at the concrete catalog and trial. -/
theorem decode_bounds_invariant_witness :
    decode wcfgA wparamsA = .ok wlistA ∧
    wcfgA.rules.min_core_factors ≤ wlistA.length ∧
    wlistA.length ≤ wcfgA.rules.max_mixed_factors :=
  ⟨decode_wparamsA, (decode_bounds_invariant wcfgA wparamsA).1 wlistA decode_wparamsA⟩

/-- C6: when mixing is enabled and the strategy pair is on the predefined
mutually-exclusive list (`is_valid_combination` is false), the trial fails
as pruned with `invalidCombination`, whatever the scorer — the backtest
scorer is never invoked and no penalty score is produced. -/
theorem invalid_combination_pruned (cfg : StrategyConfig) (p : TrialParams)
    (hstrat : (getStrategy cfg p.primary_strategy).isSome)
    (hmix : p.use_mixed_strategy = true)
    (hinvalid : is_valid_combination cfg p.primary_strategy p.secondary_strategy = false) :
    ∀ scorer, objective scorer cfg p = .error (.pruned .invalidCombination) := by
  intro scorer
  obtain ⟨s, hs⟩ := Option.isSome_iff_exists.mp hstrat
  simp [objective, decode, hs, hmix, hinvalid]

/-- A trial of `wcfgA` that requests the excluded momentum/contrarian mix. -/
def wparamsB : TrialParams :=
  { primary_strategy := "momentum", use_mixed_strategy := true
  , secondary_strategy := "contrarian", enable_auxiliary := false
  , weight := fun _ => 3, ascending := fun _ => true
  , enable_secondary := fun _ => false, enable_aux := fun _ => false }

/-- Witness for C6 at the excluded momentum/contrarian pair. -/
theorem invalid_combination_pruned_witness :
    objective (fun _ => .ok 1) wcfgA wparamsB = .error (.pruned .invalidCombination) :=
  invalid_combination_pruned wcfgA wparamsB (by rfl) rfl (by rfl) (fun _ => .ok 1)

/-- C7: a failure of the external backtest scorer propagates as a hard
error for the trial — the objective reports the scoring error and never
substitutes any score (`0.0`, a penalty, or otherwise) for that trial. -/
theorem scoring_error_propagates (cfg : StrategyConfig) (p : TrialParams)
    (comb : List FactorInfo) (scorer : List FactorInfo → Except String ℚ) (msg : String)
    (hdec : decode cfg p = .ok comb) (hfail : scorer comb = .error msg) :
    objective scorer cfg p = .error (.scoringError msg) ∧
    ∀ v : ℚ, objective scorer cfg p ≠ .ok v := by
  have hobj : objective scorer cfg p = .error (.scoringError msg) := by
    simp [objective, hdec, hfail]
  exact ⟨hobj, fun v hv => by rw [hobj] at hv; exact absurd hv (by simp)⟩

/-- Witness for C7: a scorer raising a data error at the decoded trial. -/
theorem scoring_error_propagates_witness :
    objective (fun _ => .error "data error") wcfgA wparamsA =
      .error (.scoringError "data error") ∧
    ∀ v : ℚ, objective (fun _ => .error "data error") wcfgA wparamsA ≠ .ok v :=
  scoring_error_propagates wcfgA wparamsA wlistA _ "data error" decode_wparamsA rfl

theorem not_mem_of_contains_eq_false {l : List String} {f : String}
    (h : l.contains f = false) : f ∉ l := by
  intro hm
  simp [List.contains, hm] at h

theorem secondarySelected_nodup (cfg : StrategyConfig) (p : TrialParams)
    (primaryFs : List String) (hwf : ∀ s ∈ cfg.strategies, s.core_factors.Nodup) :
    (secondarySelected cfg p primaryFs).Nodup := by
  unfold secondarySelected
  split
  · split
    · rename_i s hs
      exact (hwf s (List.mem_of_find?_eq_some hs)).filter _
    · simp
  · simp

theorem mem_secondarySelected_not_primary {cfg : StrategyConfig} {p : TrialParams}
    {primaryFs : List String} {f : String}
    (h : f ∈ secondarySelected cfg p primaryFs) : f ∉ primaryFs := by
  unfold secondarySelected at h
  split at h
  · rw [List.mem_filter] at h
    have := h.2
    rw [Bool.and_eq_true, Bool.not_eq_eq_eq_not, Bool.not_true] at this
    exact not_mem_of_contains_eq_false this.2
  · simp at h

theorem auxSelected_nodup (cfg : StrategyConfig) (p : TrialParams)
    (primaryFs secFs : List String) (hpool : cfg.factor_pool.Nodup) :
    (auxSelected cfg p primaryFs secFs).Nodup := by
  unfold auxSelected
  split
  · exact (List.take_sublist _ _).nodup (hpool.filter _)
  · simp

theorem mem_auxSelected_not_earlier {cfg : StrategyConfig} {p : TrialParams}
    {primaryFs secFs : List String} {f : String}
    (h : f ∈ auxSelected cfg p primaryFs secFs) : f ∉ primaryFs ∧ f ∉ secFs := by
  unfold auxSelected at h
  split at h
  · have hmem := (List.take_sublist _ _).mem h
    rw [List.mem_filter] at hmem
    have hcond := hmem.2
    rw [Bool.and_eq_true, Bool.and_eq_true] at hcond
    obtain ⟨⟨_, h1⟩, h2⟩ := hcond
    rw [Bool.not_eq_eq_eq_not, Bool.not_true] at h1 h2
    exact ⟨not_mem_of_contains_eq_false h1, not_mem_of_contains_eq_false h2⟩
  · simp at h

/-- C4: uniqueness invariant — for a well-formed catalog (duplicate-free
factor pools), every combination decode returns without pruning has
pairwise-distinct factor identifiers, and it violates none of the
configured conflict rules (a conflicting combination is pruned before
scoring). -/
theorem decode_nodup_and_conflict_free (cfg : StrategyConfig) (p : TrialParams)
    (l : List FactorInfo)
    (hwf : ∀ s ∈ cfg.strategies, s.core_factors.Nodup)
    (hpool : cfg.factor_pool.Nodup)
    (hl : decode cfg p = .ok l) :
    (l.map FactorInfo.name).Nodup ∧
    check_factor_conflicts cfg (l.map FactorInfo.name) = false := by
  unfold decode at hl
  split at hl
  · simp at hl
  · rename_i prim heq
    split at hl
    · simp at hl
    · dsimp only at hl
      split at hl
      · simp at hl
      · split at hl
        · simp at hl
        · split at hl
          · simp at hl
          · rename_i hconf
            rw [Except.ok.injEq] at hl
            subst hl
            have hnames :
                ((prim.core_factors ++ secondarySelected cfg p prim.core_factors ++
                    auxSelected cfg p prim.core_factors
                      (secondarySelected cfg p prim.core_factors)).map
                  (fun f =>
                    ({ name := f, weight := p.weight f,
                       ascending := p.ascending f } : FactorInfo))).map FactorInfo.name =
                prim.core_factors ++ secondarySelected cfg p prim.core_factors ++
                  auxSelected cfg p prim.core_factors
                    (secondarySelected cfg p prim.core_factors) := by
              rw [List.map_map]
              exact List.map_id _
            rw [hnames]
            refine ⟨?_, by simpa using hconf⟩
            have hprim : prim.core_factors.Nodup :=
              hwf prim (List.mem_of_find?_eq_some heq)
            have hsec := secondarySelected_nodup cfg p prim.core_factors hwf
            have haux := auxSelected_nodup cfg p prim.core_factors
              (secondarySelected cfg p prim.core_factors) hpool
            have d12 : prim.core_factors.Disjoint
                (secondarySelected cfg p prim.core_factors) :=
              fun a ha hb => mem_secondarySelected_not_primary hb ha
            have d3 : (prim.core_factors ++ secondarySelected cfg p prim.core_factors).Disjoint
                (auxSelected cfg p prim.core_factors
                  (secondarySelected cfg p prim.core_factors)) := by
              intro a ha hb
              obtain ⟨h1, h2⟩ := mem_auxSelected_not_earlier hb
              rcases List.mem_append.mp ha with h | h
              · exact h1 h
              · exact h2 h
            exact (hprim.append hsec d12).append haux d3

/-- A mixed trial of `wcfgA` on the allowed value/momentum pair, pulling in
one secondary factor. -/
def wparamsC : TrialParams :=
  { primary_strategy := "value", use_mixed_strategy := true
  , secondary_strategy := "momentum", enable_auxiliary := false
  , weight := fun _ => 2, ascending := fun _ => false
  , enable_secondary := fun f => f == "g2", enable_aux := fun _ => false }

/-- The combination `wparamsC` decodes to: the value pool plus `g2`. -/
def wlistC : List FactorInfo :=
  ["f1", "f2", "f3", "f4", "f5", "f6", "g2"].map fun f => ⟨f, 2, false⟩

theorem decode_wparamsC : decode wcfgA wparamsC = .ok wlistC := by
  rfl

/-- Witness for C4 at the concrete mixed trial. -/
theorem decode_nodup_and_conflict_free_witness :
    (∀ s ∈ wcfgA.strategies, s.core_factors.Nodup) ∧
    wcfgA.factor_pool.Nodup ∧
    decode wcfgA wparamsC = .ok wlistC ∧
    ((wlistC.map FactorInfo.name).Nodup ∧
      check_factor_conflicts wcfgA (wlistC.map FactorInfo.name) = false) :=
  ⟨by decide, by decide, decode_wparamsC,
    decode_nodup_and_conflict_free wcfgA wparamsC wlistC (by decide) (by decide)
      decode_wparamsC⟩

/-- Modelled from the spec: the two phase-two trial modes. -/
inductive PhaseTwoMode where
  | exploration
  | guided
deriving DecidableEq, Repr

/-- Modelled from the spec: the configured phase-two exploration ratio
(30% exploration / 70% guided). -/
def explorationRatio : ℚ := 3 / 10

/-- Modelled from the spec: phase-two routing — the uniform draw `r` sends
the trial to pure exploration exactly when `r < explorationRatio`, guided
mode otherwise. -/
def routeTrial (r : ℚ) : PhaseTwoMode :=
  if r < explorationRatio then .exploration else .guided

theorem countP_range_lt (m N : Nat) :
    (List.range N).countP (fun i => decide (i < m)) = min m N := by
  induction N with
  | zero => simp
  | succ N ih =>
    rw [List.range_succ, List.countP_append, ih]
    by_cases hN : N < m <;> simp [List.countP_cons, hN] <;> omega

/-- C8: phase-two routing — a trial is routed to pure exploration exactly
when its uniform draw is below the configured 0.3 exploration ratio; the
number of exploration-routed trials equals the number of draws below the
ratio; and on an equidistributed sample of `10·n` draws the exploration
fraction is exactly `3·n` of `10·n`, i.e. the configured 30%. -/
theorem phase_two_routing :
    (∀ r : ℚ, routeTrial r = .exploration ↔ r < explorationRatio) ∧
    (∀ rs : List ℚ, (rs.map routeTrial).count .exploration =
      rs.countP (fun r => decide (r < explorationRatio))) ∧
    (∀ n : Nat,
      (((List.range (10 * n)).map fun i : Nat => (i : ℚ) / (10 * n)).map routeTrial).count
        .exploration = 3 * n) := by
  have hiff : ∀ r : ℚ, routeTrial r = .exploration ↔ r < explorationRatio := by
    intro r
    unfold routeTrial
    split <;> rename_i h <;> simp [h]
  have hcount : ∀ rs : List ℚ, (rs.map routeTrial).count .exploration =
      rs.countP (fun r => decide (r < explorationRatio)) := by
    intro rs
    induction rs with
    | nil => rfl
    | cons r rs ih =>
      by_cases h : r < explorationRatio <;>
        simp [routeTrial, List.count_cons, List.countP_cons, h, ih]
  have hcomp : ∀ (g : Nat → ℚ) (l : List Nat),
      ((l.map g).map routeTrial).count .exploration =
        l.countP (fun i => decide (g i < explorationRatio)) := by
    intro g l
    induction l with
    | nil => rfl
    | cons x xs ih =>
      rw [List.map_map] at ih ⊢
      by_cases h : g x < explorationRatio <;>
        simp [routeTrial, List.count_cons, List.countP_cons, h, ih]
  refine ⟨hiff, hcount, fun n => ?_⟩
  rcases Nat.eq_zero_or_pos n with rfl | hn
  · simp
  · rw [hcomp]
    have hpred : ∀ i : Nat,
        (decide ((i : ℚ) / (10 * n) < explorationRatio)) = decide (i < 3 * n) := by
      intro i
      have hiffn : ((i : ℚ) / (10 * n) < explorationRatio) ↔ (i < 3 * n) := by
        unfold explorationRatio
        rw [div_lt_div_iff₀ (by positivity) (by norm_num)]
        constructor <;> intro h
        · by_contra hc
          push_neg at hc
          have hge : (3 * n : ℚ) ≤ i := by exact_mod_cast hc
          nlinarith
        · have hlt : (i : ℚ) < 3 * n := by exact_mod_cast h
          nlinarith
      simp [hiffn]
    have hcongr : (List.range (10 * n)).countP
          (fun i : Nat => decide ((i : ℚ) / (10 * n) < explorationRatio)) =
        (List.range (10 * n)).countP (fun i : Nat => decide (i < 3 * n)) :=
      List.countP_congr fun i _ => by rw [hpred i]
    rw [hcongr, countP_range_lt]
    omega

/-- Modelled from the spec: one recorded trial — its insertion id, its
score (`none` when the trial was pruned), and its derived strategy
semantics. -/
structure TrialRecord where
  id : Nat
  score : Option ℚ
  strategy : String
  comb : List FactorInfo
deriving DecidableEq, Repr

/-- The trials that were actually scored; pruned trials carry no score. -/
def scoredTrials (l : List TrialRecord) : List TrialRecord :=
  l.filter (fun t => t.score.isSome)

/-- The recorded score of a scored trial. -/
def scoreVal (t : TrialRecord) : ℚ := t.score.getD 0

/-- Modelled from the spec: the analyzer's ranking order — higher score
first, ties broken by the earlier trial id. -/
def rankBetter (t u : TrialRecord) : Prop :=
  scoreVal u < scoreVal t ∨ (scoreVal t = scoreVal u ∧ t.id ≤ u.id)

instance : DecidableRel rankBetter := fun t u => by
  unfold rankBetter
  exact inferInstance

instance : IsTotal TrialRecord rankBetter where
  total t u := by
    rcases lt_trichotomy (scoreVal t) (scoreVal u) with h | h | h
    · exact Or.inr (Or.inl h)
    · rcases Nat.le_total t.id u.id with hid | hid
      · exact Or.inl (Or.inr ⟨h, hid⟩)
      · exact Or.inr (Or.inr ⟨h.symm, hid⟩)
    · exact Or.inl (Or.inl h)

instance : IsTrans TrialRecord rankBetter where
  trans t u v htu huv := by
    rcases htu with h1 | ⟨h1, hid1⟩
    · rcases huv with h2 | ⟨h2, _⟩
      · exact Or.inl (h2.trans h1)
      · exact Or.inl (h2 ▸ h1)
    · rcases huv with h2 | ⟨h2, hid2⟩
      · exact Or.inl (h1 ▸ h2)
      · exact Or.inr ⟨h1.trans h2, hid1.trans hid2⟩

/-- Modelled from the spec: the top-N selection — scored trials sorted by
score descending (ties: earliest id), truncated to `n`. -/
def topTrials (l : List TrialRecord) (n : Nat) : List TrialRecord :=
  ((scoredTrials l).insertionSort rankBetter).take n

/-- Modelled from the spec: `PhaseOneFindings` — the selected top trials
with per-strategy mean score and per-factor inclusion / weight / direction
histograms computed over the top trials only. -/
structure PhaseOneFindings where
  top : List TrialRecord
  strategyMean : String → Option ℚ
  factorInclusion : String → Nat
  weightCount : String → Nat → Nat
  directionCount : String → Bool → Nat

/-- Modelled from the spec: `analyze(trials, topN)` — pure aggregation over
the top-N scored trials. -/
def analyze (l : List TrialRecord) (n : Nat) : PhaseOneFindings :=
  let top := topTrials l n
  { top := top
  , strategyMean := fun s =>
      let xs := top.filter (fun t => t.strategy == s)
      if xs.isEmpty then none else some ((xs.map scoreVal).sum / xs.length)
  , factorInclusion := fun f =>
      (top.filter (fun t => t.comb.any (fun fi => fi.name == f))).length
  , weightCount := fun f w =>
      (top.filter (fun t =>
        t.comb.any (fun fi => fi.name == f && fi.weight == w))).length
  , directionCount := fun f b =>
      (top.filter (fun t =>
        t.comb.any (fun fi => fi.name == f && fi.ascending == b))).length }

/-- C9: analyzer correctness — `analyze` is a pure function of its input;
its selection consists of exactly `min topN |scored|` trials taken from the
input, all of them scored (pruned trials never contribute), sorted by score
descending with earlier-id tie-break, dominating every scored trial left
unselected; and the per-strategy statistics are computed over the selected
trials only. -/
theorem analyze_correct (l : List TrialRecord) (n : Nat) :
    ((analyze l n).top.length = min n (scoredTrials l).length) ∧
    (∀ t ∈ (analyze l n).top, t ∈ l ∧ t.score.isSome) ∧
    ((analyze l n).top.Sorted rankBetter) ∧
    (∀ t ∈ (analyze l n).top, ∀ u ∈ scoredTrials l, u ∉ (analyze l n).top →
      rankBetter t u) ∧
    (∀ s, (analyze l n).strategyMean s ≠ none →
      ∃ t ∈ (analyze l n).top, t.strategy = s) := by
  have htop : (analyze l n).top = topTrials l n := rfl
  have hperm : ((scoredTrials l).insertionSort rankBetter).Perm (scoredTrials l) :=
    List.perm_insertionSort rankBetter (scoredTrials l)
  have hsorted : ((scoredTrials l).insertionSort rankBetter).Sorted rankBetter :=
    List.sorted_insertionSort rankBetter (scoredTrials l)
  refine ⟨?_, ?_, ?_, ?_, ?_⟩
  · rw [htop]
    unfold topTrials
    rw [List.length_take, hperm.length_eq]
  · intro t ht
    rw [htop] at ht
    have hmem : t ∈ scoredTrials l :=
      hperm.mem_iff.mp ((List.take_sublist _ _).mem ht)
    have := List.mem_filter.mp hmem
    exact ⟨this.1, by simpa using this.2⟩
  · rw [htop]
    exact hsorted.sublist (List.take_sublist _ _)
  · intro t ht u hu hnot
    rw [htop] at ht hnot
    unfold topTrials at ht hnot
    have hu' : u ∈ (scoredTrials l).insertionSort rankBetter := hperm.mem_iff.mpr hu
    have hsplit := List.take_append_drop n ((scoredTrials l).insertionSort rankBetter)
    have hudrop : u ∈ ((scoredTrials l).insertionSort rankBetter).drop n := by
      rcases List.mem_append.mp (by rw [hsplit]; exact hu') with h | h
      · exact absurd h hnot
      · exact h
    have hpw := hsorted
    rw [← hsplit] at hpw
    exact (List.pairwise_append.mp hpw).2.2 t ht u hudrop
  · intro s hs
    by_contra hc
    push_neg at hc
    have hempty : ((analyze l n).top.filter (fun t => t.strategy == s)) = [] := by
      rw [List.filter_eq_nil_iff]
      intro t ht
      simpa using fun heq => hc t ht heq
    apply hs
    show (let xs := (analyze l n).top.filter (fun t => t.strategy == s)
      if xs.isEmpty then none
      else some ((xs.map scoreVal).sum / xs.length)) = none
    rw [hempty]
    rfl

/-- A concrete trial history: three scored trials and one pruned trial. -/
def wtrials : List TrialRecord :=
  [ ⟨0, some 5, "value", [⟨"f1", 3, true⟩]⟩
  , ⟨1, none, "momentum", []⟩
  , ⟨2, some 7, "momentum", [⟨"g1", 2, false⟩]⟩
  , ⟨3, some 5, "value", [⟨"f2", 1, true⟩]⟩ ]

/-- Witness for C9 at the concrete history with `topN = 2`. -/
theorem analyze_correct_witness :
    (analyze wtrials 2).top.length = min 2 (scoredTrials wtrials).length :=
  (analyze_correct wtrials 2).1

end Lude
